import Mathlib

/-!
Verification of the discord-python-starter core against its specification.

The Python source is shallowly embedded: strings are lists of characters,
wall-clock time is a rational number, and the remote Honcho store is an
explicit state threaded through the operations that the source performs on
it.  Each embedded definition mirrors one function of the source
(`src/bot.py`, `src/honcho_utils.py`, `tools/github/github_tool.py`);
definitions for store behaviour that lives behind the Honcho client are
marked `Modelled from the spec:`.
-/

namespace ChunkedDelivery

/-- Python `str.splitlines` line-boundary characters: LF, CR, VT, FF,
FS, GS, RS, NEL, LINE SEPARATOR, PARAGRAPH SEPARATOR.  The CR-LF pair is
handled as a single boundary in `splitlines`. -/
def isLineBreak (c : Char) : Bool :=
  c == '\n' || c == '\x0d' || c == '\x0b' || c == '\x0c' ||
  c == '\x1c' || c == '\x1d' || c == '\x1e' || c == '\x85' ||
  c == ' ' || c == ' '

/-- Attach a character to the front of the first line of a line list
(used to build up the current line of `splitlines`). -/
def consLine (c : Char) : List (List Char) → List (List Char)
  | [] => [[c]]
  | l :: ls => (c :: l) :: ls

/-- Embedding of Python `text.splitlines(keepends=True)` as used by
`send_discord_message`: split at line boundaries, each line keeping its
terminator; a trailing fragment without a terminator is kept as the last
line; the empty text yields no lines.  A single remaining character is
always the whole final line, whether or not it is a terminator. -/
def splitlines : List Char → List (List Char)
  | [] => []
  | [c] => [[c]]
  | c1 :: c2 :: rest =>
      if c1 = '\x0d' ∧ c2 = '\n' then ['\x0d', '\n'] :: splitlines rest
      else if isLineBreak c1 then [c1] :: splitlines (c2 :: rest)
      else consLine c1 (splitlines (c2 :: rest))

/-- One iteration of the chunking loop in `send_discord_message`
(`src/bot.py`): state is `(chunks, current_chunk)`; if appending the next
line would push the buffer past the limit, the buffer is emitted and the
line starts a new buffer, otherwise the line is appended to the buffer. -/
def chunkStep (limit : Nat) (st : List (List Char) × List Char)
    (line : List Char) : List (List Char) × List Char :=
  if st.2.length + line.length > limit then (st.1 ++ [st.2], line)
  else (st.1, st.2 ++ line)

/-- The chunking algorithm inside `send_discord_message`: fold the lines
of the text through `chunkStep`, then append the final buffer when it is
non-empty.  The source fixes `limit = 1500`; the limit is kept as a
parameter here, exactly as the loop uses it. -/
def split (limit : Nat) (text : List Char) : List (List Char) :=
  let st := (splitlines text).foldl (chunkStep limit) ([], [])
  if st.2 = [] then st.1 else st.1 ++ [st.2]

/-- `send_discord_message` sends the text whole when it is at most 1500
characters long, and otherwise sends the chunks produced by
`split 1500` one by one. -/
def sendChunks (text : List Char) : List (List Char) :=
  if text.length > 1500 then split 1500 text else [text]

theorem consLine_flatten (c : Char) (ls : List (List Char)) :
    (consLine c ls).flatten = c :: ls.flatten := by
  cases ls <;> simp [consLine]

/-- Concatenating the lines of `splitlines text` restores `text`. -/
theorem splitlines_flatten (s : List Char) : (splitlines s).flatten = s := by
  induction s using splitlines.induct with
  | case1 => simp [splitlines]
  | case2 c => simp [splitlines]
  | case3 c1 c2 rest h ih => simp [splitlines, h, ih]
  | case4 c1 c2 rest h hb ih => simp [splitlines, h, hb, ih]
  | case5 c1 c2 rest h hb ih =>
      simp [splitlines, h, hb, consLine_flatten, ih]

/-- The chunk accumulator is lossless: flattening chunks-so-far plus the
buffer always equals the initial contents plus the lines consumed. -/
theorem foldl_chunkStep_flatten (limit : Nat) (lines : List (List Char)) :
    ∀ st : List (List Char) × List Char,
      ((lines.foldl (chunkStep limit) st).1.flatten ++
        (lines.foldl (chunkStep limit) st).2)
        = st.1.flatten ++ st.2 ++ lines.flatten := by
  induction lines with
  | nil => intro st; simp
  | cons l ls ih =>
      intro st
      rw [List.foldl_cons, ih]
      by_cases h : st.2.length + l.length > limit <;>
        simp [chunkStep, h]

/-- `split` is lossless. -/
theorem split_flatten (limit : Nat) (text : List Char) :
    (split limit text).flatten = text := by
  unfold split
  have h := foldl_chunkStep_flatten limit (splitlines text) ([], [])
  simp only [List.flatten_nil, List.nil_append] at h
  rw [splitlines_flatten] at h
  by_cases hb : ((splitlines text).foldl (chunkStep limit) ([], [])).2 = []
  · simp only [hb, if_pos rfl]
    rw [hb] at h; simpa using h
  · simp only [if_neg hb]
    simpa using h

/-- Invariant of the chunking fold: every emitted chunk, and the running
buffer, is either within the limit or is one single line of the input. -/
theorem foldl_chunkStep_inv (limit : Nat) (L : List (List Char))
    (lines : List (List Char)) (hlines : ∀ l ∈ lines, l ∈ L) :
    ∀ st : List (List Char) × List Char,
      (∀ c ∈ st.1, c.length ≤ limit ∨ c ∈ L) →
      (st.2.length ≤ limit ∨ st.2 ∈ L) →
      ((∀ c ∈ (lines.foldl (chunkStep limit) st).1,
          c.length ≤ limit ∨ c ∈ L) ∧
        ((lines.foldl (chunkStep limit) st).2.length ≤ limit ∨
          (lines.foldl (chunkStep limit) st).2 ∈ L)) := by
  induction lines with
  | nil => intro st h1 h2; exact ⟨h1, h2⟩
  | cons l ls ih =>
      intro st h1 h2
      have hlL : l ∈ L := hlines l (List.mem_cons_self l ls)
      have hls : ∀ l' ∈ ls, l' ∈ L := fun l' hl' =>
        hlines l' (List.mem_cons_of_mem _ hl')
      rw [List.foldl_cons]
      by_cases h : st.2.length + l.length > limit
      · refine ih hls _ ?_ ?_
        · simp only [chunkStep, if_pos h]
          intro c hc
          rcases List.mem_append.1 hc with h' | h'
          · exact h1 c h'
          · rcases List.mem_singleton.1 h' with rfl
            exact h2
        · simp only [chunkStep, if_pos h]
          exact Or.inr hlL
      · refine ih hls _ ?_ ?_
        · simp only [chunkStep, if_neg h]
          exact h1
        · simp only [chunkStep, if_neg h]
          left
          have : st.2.length + l.length ≤ limit := by omega
          simpa using this

end ChunkedDelivery

/-- Claim C2: for every text `T` and every limit `M ≥ 1`, concatenating
the chunks produced by the chunking loop of `send_discord_message`
(`split T M`) in output order reproduces `T` exactly, with no characters
lost, duplicated or reordered. -/
theorem claim_C2_split_lossless (limit : Nat) (text : List Char)
    (h : 1 ≤ limit) :
    (ChunkedDelivery.split limit text).flatten = text := by
  exact ChunkedDelivery.split_flatten limit text

theorem claim_C2_split_lossless_witness :
    1 ≤ 3 ∧ (ChunkedDelivery.split 3 "ab\ncdef\ng".data).flatten
      = "ab\ncdef\ng".data :=
  ⟨by decide, claim_C2_split_lossless 3 "ab\ncdef\ng".data (by decide)⟩

/-- Claim C3: every chunk produced by `split T M` has length at most `M`,
except that a chunk that is a single line of the text longer than `M` is
emitted as its own oversized chunk; and the final non-empty buffer of the
loop is always emitted as the last chunk. -/
theorem claim_C3_chunk_bound (limit : Nat) (text : List Char)
    (h : 1 ≤ limit) :
    (∀ c ∈ ChunkedDelivery.split limit text,
        c.length ≤ limit ∨
          (limit < c.length ∧ c ∈ ChunkedDelivery.splitlines text)) ∧
      (((ChunkedDelivery.splitlines text).foldl
          (ChunkedDelivery.chunkStep limit) ([], [])).2 ≠ [] →
        (ChunkedDelivery.split limit text).getLast? =
          some ((ChunkedDelivery.splitlines text).foldl
            (ChunkedDelivery.chunkStep limit) ([], [])).2) := by
  constructor
  · have hinv := ChunkedDelivery.foldl_chunkStep_inv limit
      (ChunkedDelivery.splitlines text) (ChunkedDelivery.splitlines text)
      (fun l hl => hl) ([], []) (by simp) (by simp)
    intro c hc
    have hc' : c.length ≤ limit ∨ c ∈ ChunkedDelivery.splitlines text := by
      unfold ChunkedDelivery.split at hc
      by_cases hb : ((ChunkedDelivery.splitlines text).foldl
          (ChunkedDelivery.chunkStep limit) ([], [])).2 = []
      · rw [if_pos hb] at hc
        exact hinv.1 c hc
      · rw [if_neg hb] at hc
        rcases List.mem_append.1 hc with h' | h'
        · exact hinv.1 c h'
        · rcases List.mem_singleton.1 h' with rfl
          exact hinv.2
    rcases hc' with h' | h'
    · exact Or.inl h'
    · by_cases hlen : c.length ≤ limit
      · exact Or.inl hlen
      · exact Or.inr ⟨by omega, h'⟩
  · intro hb
    unfold ChunkedDelivery.split
    rw [if_neg hb]
    exact List.getLast?_concat _

theorem claim_C3_chunk_bound_witness :
    1 ≤ 2 ∧ (ChunkedDelivery.split 2 "ab\nlong\ncd".data).getLast?
      = some "cd".data :=
  ⟨by decide,
    (claim_C3_chunk_bound 2 "ab\nlong\ncd".data (by decide)).2 (by decide)⟩

namespace RateLimiter

/-- The rate-limiting state of `src/bot.py`: the `response_timestamps`
map (channel id to deque of response times, oldest first), the
`channel_rate_limits` mapping loaded from the config file, and the global
default `RATE_LIMIT_PER_MINUTE` fallback. -/
structure RateState where
  response_timestamps : Nat → List ℚ
  channel_rate_limits : List (Nat × Nat)
  default_limit : Nat

/-- Embedding of `get_rate_limit_for_channel` (`src/bot.py`): the limit
configured for the channel, falling back to the global default. -/
def get_rate_limit_for_channel (st : RateState) (channel_id : Nat) : Nat :=
  match st.channel_rate_limits.lookup channel_id with
  | some v => v
  | none => st.default_limit

/-- The eviction loop of `is_rate_limited`: pop timestamps from the front
of the deque while they are more than 60 seconds old. -/
def evictOld (current : ℚ) : List ℚ → List ℚ
  | [] => []
  | t :: rest => if current - t > 60 then evictOld current rest else t :: rest

/-- Embedding of `is_rate_limited` (`src/bot.py`): evict timestamps older
than one minute (the eviction mutates the stored deque), then report
whether the remaining count has reached the channel's limit. -/
def is_rate_limited (st : RateState) (channel_id : Nat) (current : ℚ) :
    Bool × RateState :=
  let ts := evictOld current (st.response_timestamps channel_id)
  let limit := get_rate_limit_for_channel st channel_id
  (decide (ts.length ≥ limit),
   { st with response_timestamps :=
       fun c => if c = channel_id then ts else st.response_timestamps c })

/-- Embedding of `record_response` (`src/bot.py`): append the current
time to the channel's deque. -/
def record_response (st : RateState) (channel_id : Nat) (current : ℚ) :
    RateState :=
  { st with response_timestamps :=
      fun c =>
        if c = channel_id then st.response_timestamps channel_id ++ [current]
        else st.response_timestamps c }

end RateLimiter

/-- Claim C6: with limit 1 for a channel and no recorded responses, an
admit check at `t0` allows; after recording a response at `t0`, a second
check within 60 seconds (at `t1`) denies; and once 61 seconds have passed
with no new recorded events (a check at `t2`), the old timestamp no
longer counts, so the check allows again. -/
theorem claim_C6_rate_limiter_window (st : RateLimiter.RateState)
    (ch : Nat) (t0 t1 t2 : ℚ)
    (hlimit : RateLimiter.get_rate_limit_for_channel st ch = 1)
    (hempty : st.response_timestamps ch = [])
    (h01 : t1 - t0 ≤ 60) (h02 : 61 ≤ t2 - t0) :
    (RateLimiter.is_rate_limited st ch t0).1 = false ∧
      (RateLimiter.is_rate_limited
        (RateLimiter.record_response
          (RateLimiter.is_rate_limited st ch t0).2 ch t0) ch t1).1 = true ∧
      (RateLimiter.is_rate_limited
        (RateLimiter.record_response
          (RateLimiter.is_rate_limited st ch t0).2 ch t0) ch t2).1 = false := by
  have hlim1 : ∀ f, RateLimiter.get_rate_limit_for_channel
      { st with response_timestamps := f } ch = 1 := fun f => hlimit
  refine ⟨?_, ?_, ?_⟩
  · simp [RateLimiter.is_rate_limited, hempty, RateLimiter.evictOld, hlimit]
  · have hkeep : ¬(t1 - t0 > 60) := by linarith
    simp [RateLimiter.is_rate_limited, RateLimiter.record_response,
      hempty, RateLimiter.evictOld, hkeep, hlim1]
  · have hdrop : t2 - t0 > 60 := by linarith
    simp [RateLimiter.is_rate_limited, RateLimiter.record_response,
      hempty, RateLimiter.evictOld, hdrop, hlim1]

theorem claim_C6_rate_limiter_window_witness :
    (RateLimiter.is_rate_limited ⟨fun _ => [], [], 1⟩ 0 0).1 = false ∧
      (RateLimiter.is_rate_limited
        (RateLimiter.record_response
          (RateLimiter.is_rate_limited ⟨fun _ => [], [], 1⟩ 0 0).2 0 0)
        0 30).1 = true ∧
      (RateLimiter.is_rate_limited
        (RateLimiter.record_response
          (RateLimiter.is_rate_limited ⟨fun _ => [], [], 1⟩ 0 0).2 0 0)
        0 61).1 = false :=
  claim_C6_rate_limiter_window ⟨fun _ => [], [], 1⟩ 0 0 30 61
    (by decide) (by decide) (by norm_num) (by norm_num)

namespace SessionResolver

/-- A session record of the remote Honcho store: synthetic id, owning
app and user, metadata key-value map, and the active flag. -/
structure Session where
  id : Nat
  app_id : String
  user_id : String
  metadata : List (String × Bool)
  is_active : Bool
deriving DecidableEq, Repr

/-- The remote session store state: the stored sessions and a counter
supplying fresh session ids. -/
structure Store where
  sessions : List Session
  next_id : Nat
deriving DecidableEq, Repr

/-- Modelled from the spec: the server-side filter of the session list
operation — a session matches when it belongs to the app and user, is
active, and its metadata contains every entry of the filter. -/
def sessionMatches (app_id user_id : String) (md : List (String × Bool))
    (s : Session) : Bool :=
  s.app_id == app_id && s.user_id == user_id && s.is_active &&
    md.all (fun kv => s.metadata.contains kv)

/-- Modelled from the spec: `honcho.apps.users.sessions.list` with
`is_active=True` and a metadata filter, as called by `get_session`. -/
def listSessions (store : Store) (app_id user_id : String)
    (md : List (String × Bool)) : List Session :=
  store.sessions.filter (sessionMatches app_id user_id md)

/-- Modelled from the spec: `honcho.apps.users.sessions.create` — adds
one new active session tagged with the given metadata, under a fresh
id. -/
def createSession (store : Store) (app_id user_id : String)
    (metadata : List (String × Bool)) : Session × Store :=
  let s : Session := ⟨store.next_id, app_id, user_id, metadata, true⟩
  (s, ⟨store.sessions ++ [s], store.next_id + 1⟩)

/-- The outcome of one `get_session` resolution: the returned
`(session, is_new)` pair, the store afterwards, and how many remote
create calls the resolution issued. -/
structure ResolveResult where
  session : Option Session
  is_new : Bool
  store : Store
  create_calls : Nat
deriving DecidableEq, Repr

/-- Embedding of `get_session` (`src/honcho_utils.py`): list the active
sessions for the user filtered by the location metadata; if any, return
the first with `is_new = False`; otherwise create one when `create` is
set, and return "no session" when it is not. -/
def get_session (store : Store) (app_id user_id : String)
    (custom_metadata : List (String × Bool)) (create : Bool) :
    ResolveResult :=
  match listSessions store app_id user_id custom_metadata with
  | s :: _ => ⟨some s, false, store, 0⟩
  | [] =>
      if create then
        let r := createSession store app_id user_id custom_metadata
        ⟨some r.1, true, r.2, 1⟩
      else ⟨none, false, store, 0⟩

/-- A freshly created session matches the filter it was created with. -/
theorem new_session_matches (app_id user_id : String)
    (md : List (String × Bool)) (n : Nat) :
    sessionMatches app_id user_id md ⟨n, app_id, user_id, md, true⟩ = true := by
  simp [sessionMatches, List.all_eq_true]

/-- Listing after a create finds the previous matches plus the new
session. -/
theorem listSessions_create (store : Store) (app_id user_id : String)
    (md : List (String × Bool)) :
    listSessions (createSession store app_id user_id md).2 app_id user_id md
      = listSessions store app_id user_id md
        ++ [(createSession store app_id user_id md).1] := by
  simp [listSessions, createSession, List.filter_append, new_session_matches]

end SessionResolver

open SessionResolver

/-- Claim C1: resolving (`get_session` with `create=True`) twice in a row
with no intervening reset returns the same session both times; when at
most one active session exists for the (owner, location) key beforehand,
at most one exists at every later observation point, and resolution never
issues a create while an active session for the key exists. -/
theorem claim_C1_unique_active_session (store : Store)
    (app_id user_id : String) (md : List (String × Bool))
    (hinv : (listSessions store app_id user_id md).length ≤ 1) :
    (get_session store app_id user_id md true).session.isSome = true ∧
      (get_session (get_session store app_id user_id md true).store
          app_id user_id md true).session
        = (get_session store app_id user_id md true).session ∧
      (get_session (get_session store app_id user_id md true).store
          app_id user_id md true).store
        = (get_session store app_id user_id md true).store ∧
      (listSessions (get_session store app_id user_id md true).store
          app_id user_id md).length ≤ 1 ∧
      (listSessions store app_id user_id md ≠ [] →
        (get_session store app_id user_id md true).store = store ∧
          (get_session store app_id user_id md true).create_calls = 0) := by
  rcases hls : listSessions store app_id user_id md with _ | ⟨s, rest⟩
  · have h1 : get_session store app_id user_id md true
        = ⟨some (createSession store app_id user_id md).1, true,
            (createSession store app_id user_id md).2, 1⟩ := by
      unfold get_session
      rw [hls]
      rfl
    have h2 : listSessions (createSession store app_id user_id md).2
        app_id user_id md = [(createSession store app_id user_id md).1] := by
      rw [listSessions_create, hls]
      simp
    have h3 : get_session (createSession store app_id user_id md).2
        app_id user_id md true
        = ⟨some (createSession store app_id user_id md).1, false,
            (createSession store app_id user_id md).2, 0⟩ := by
      unfold get_session
      rw [h2]
    refine ⟨?_, ?_, ?_, ?_, ?_⟩
    · rw [h1]; rfl
    · simp only [h1, h3]
    · simp only [h1, h3]
    · simp only [h1, h2, List.length_cons, List.length_nil]; omega
    · intro hne; exact absurd rfl hne
  · have hrest : rest = [] := by
      rw [hls] at hinv
      simp only [List.length_cons] at hinv
      exact List.length_eq_zero.mp (by omega)
    subst hrest
    have h1 : get_session store app_id user_id md true
        = ⟨some s, false, store, 0⟩ := by
      unfold get_session
      rw [hls]
    refine ⟨?_, ?_, ?_, ?_, ?_⟩
    · rw [h1]; rfl
    · simp only [h1]
    · simp only [h1]
    · simp only [h1, hls, List.length_cons, List.length_nil]; omega
    · intro _; rw [h1]; exact ⟨rfl, rfl⟩

/-- Claim C7: with no matching active session, `get_session` with
`create=False` returns "no session" (not an error) and leaves the store
untouched; with `create=True` it creates exactly one new session tagged
with the location metadata and returns it marked as newly created; and
every resolution issues at most one remote create call. -/
theorem claim_C7_resolution_create (store : Store)
    (app_id user_id : String) (md : List (String × Bool))
    (hnone : listSessions store app_id user_id md = []) :
    get_session store app_id user_id md false
        = ⟨none, false, store, 0⟩ ∧
      (get_session store app_id user_id md true).is_new = true ∧
      (get_session store app_id user_id md true).create_calls = 1 ∧
      (∃ s : Session,
        (get_session store app_id user_id md true).session = some s ∧
          s.metadata = md ∧ s.is_active = true ∧
          (get_session store app_id user_id md true).store.sessions
            = store.sessions ++ [s]) ∧
      (∀ (store' : Store) (aid uid : String) (md' : List (String × Bool))
          (c : Bool), (get_session store' aid uid md' c).create_calls ≤ 1) := by
  have h1 : get_session store app_id user_id md false
      = ⟨none, false, store, 0⟩ := by
    unfold get_session
    rw [hnone]
    rfl
  have h2 : get_session store app_id user_id md true
      = ⟨some (createSession store app_id user_id md).1, true,
          (createSession store app_id user_id md).2, 1⟩ := by
    unfold get_session
    rw [hnone]
    rfl
  refine ⟨h1, ?_, ?_, ?_, ?_⟩
  · rw [h2]
  · rw [h2]
  · refine ⟨(createSession store app_id user_id md).1, ?_, rfl, rfl, ?_⟩
    · rw [h2]
    · rw [h2]; rfl
  · intro store' aid uid md' c
    unfold get_session
    rcases listSessions store' aid uid md' with _ | ⟨s', rest'⟩
    · cases c <;> simp
    · simp

theorem claim_C1_unique_active_session_witness :
    (listSessions ⟨[], 0⟩ "a" "u" [("c", true)]).length ≤ 1 ∧
      (get_session
          (get_session ⟨[], 0⟩ "a" "u" [("c", true)] true).store
          "a" "u" [("c", true)] true).session
        = (get_session ⟨[], 0⟩ "a" "u" [("c", true)] true).session :=
  ⟨by decide,
    (claim_C1_unique_active_session ⟨[], 0⟩ "a" "u" [("c", true)]
      (by decide)).2.1⟩

theorem claim_C7_resolution_create_witness :
    get_session ⟨[], 0⟩ "a" "u" [("c", true)] false
        = ⟨none, false, ⟨[], 0⟩, 0⟩ ∧
      (get_session ⟨[], 0⟩ "a" "u" [("c", true)] true).create_calls = 1 :=
  ⟨(claim_C7_resolution_create ⟨[], 0⟩ "a" "u" [("c", true)] (by decide)).1,
    (claim_C7_resolution_create ⟨[], 0⟩ "a" "u" [("c", true)]
      (by decide)).2.2.1⟩

namespace TransactionalWriter

/-- One persisted message turn: text content and the author role flag
(`is_user`), as passed to `messages.batch` in `on_message`. -/
structure Turn where
  content : String
  is_user : Bool
deriving DecidableEq, Repr

/-- Modelled from the spec: `honcho.apps.users.sessions.messages.batch`
— a single remote call appending all given messages to the session's log
atomically; when the call fails (`ok = false`, e.g. the store is
unreachable) the log is unchanged. -/
def batchAppend (log : List Turn) (msgs : List Turn) (ok : Bool) :
    Bool × List Turn :=
  if ok then (true, log ++ msgs) else (false, log)

/-- The persistence step at the end of `on_message` (`src/bot.py`): one
batch call carrying the user's turn and the bot's response. -/
def commitPair (log : List Turn) (input response : String) (ok : Bool) :
    Bool × List Turn :=
  batchAppend log [⟨input, true⟩, ⟨response, false⟩] ok

/-- The client plus remote store state seen by `honcho_transaction`:
committed (visible) turns, pending per-transaction writes, the set of
open transactions, a fresh-transaction counter, and the client's
`transaction_id` header. -/
structure TxnState where
  committed : List Turn
  pending : List (Nat × Turn)
  openTxns : List Nat
  nextTxn : Nat
  transaction_id : Option Nat
deriving DecidableEq, Repr

/-- Modelled from the spec: `transactions.begin` — opens a fresh
transaction and returns its id. -/
def beginTxn (st : TxnState) : Nat × TxnState :=
  (st.nextTxn,
   { st with openTxns := st.nextTxn :: st.openTxns,
             nextTxn := st.nextTxn + 1 })

/-- Modelled from the spec: `transactions.commit` — publishes the
transaction's pending writes into the visible log and closes it. -/
def commitTxn (txn : Nat) (st : TxnState) : TxnState :=
  { st with
    committed := st.committed
      ++ (st.pending.filter (fun p => p.1 == txn)).map (fun p => p.2),
    pending := st.pending.filter (fun p => p.1 != txn),
    openTxns := st.openTxns.filter (fun t => t != txn) }

/-- Modelled from the spec: `transactions.rollback` — discards the
transaction's pending writes and closes it. -/
def rollbackTxn (txn : Nat) (st : TxnState) : TxnState :=
  { st with
    pending := st.pending.filter (fun p => p.1 != txn),
    openTxns := st.openTxns.filter (fun t => t != txn) }

/-- Modelled from the spec: a message write issued through the client —
it lands in the transaction named by the client's `transaction_id`
header, or directly in the visible log when no header is set. -/
def clientWrite (st : TxnState) (m : Turn) : TxnState :=
  match st.transaction_id with
  | some t => { st with pending := st.pending ++ [(t, m)] }
  | none => { st with committed := st.committed ++ [m] }

/-- The actions a wrapped body can take inside the transaction scope:
issue a write through the client, or raise an exception. -/
inductive TxnOp where
  | write (m : Turn)
  | raiseErr
deriving DecidableEq, Repr

/-- Run the wrapped body; a raised exception stops it and reports
failure, leaving the state as it was at the raise. -/
def runBody : List TxnOp → TxnState → TxnState × Bool
  | [], st => (st, true)
  | .write m :: rest, st => runBody rest (clientWrite st m)
  | .raiseErr :: _, st => (st, false)

/-- Embedding of `honcho_transaction` (`src/honcho_utils.py`): begin a
transaction, attach its id to the client's headers, run the body; on
success restore the old header and commit; on an exception from the body
roll back and re-raise (the header is left as the body left it, exactly
as in the source). -/
def honcho_transaction (body : List TxnOp) (st : TxnState) :
    TxnState × Bool :=
  let old := st.transaction_id
  let r0 := beginTxn st
  let st2 := { r0.2 with transaction_id := some r0.1 }
  let r1 := runBody body st2
  if r1.2 then
    (commitTxn r0.1 { r1.1 with transaction_id := old }, true)
  else
    (rollbackTxn r0.1 r1.1, false)

/-- While the client header points at a transaction, the body's writes
never touch the committed log, and the header is unchanged. -/
theorem runBody_committed (body : List TxnOp) :
    ∀ (st : TxnState) (t : Nat), st.transaction_id = some t →
      ((runBody body st).1.committed = st.committed ∧
        (runBody body st).1.transaction_id = some t) := by
  induction body with
  | nil => intro st t ht; exact ⟨rfl, ht⟩
  | cons op rest ih =>
      intro st t ht
      cases op with
      | write m =>
          have hcw : clientWrite st m
              = { st with pending := st.pending ++ [(t, m)] } := by
            unfold clientWrite
            rw [ht]
          rw [show runBody (.write m :: rest) st
              = runBody rest (clientWrite st m) from rfl, hcw]
          exact ih _ t ht
      | raiseErr => exact ⟨rfl, ht⟩

end TransactionalWriter

open TransactionalWriter

/-- Claim C4: the batched message write after a response (`commitPair`)
either makes both turns visible or, on failure, leaves the log exactly as
it was; it never persists only the user's turn without the assistant's
turn. -/
theorem claim_C4_commit_pair_atomic (log : List Turn)
    (input response : String) :
    commitPair log input response true
        = (true, log ++ [⟨input, true⟩, ⟨response, false⟩]) ∧
      commitPair log input response false = (false, log) ∧
      ∀ ok : Bool,
        (commitPair log input response ok).2 ≠ log ++ [⟨input, true⟩] := by
  refine ⟨rfl, rfl, ?_⟩
  intro ok h
  cases ok with
  | true =>
      have := congrArg List.length h
      simp [commitPair, batchAppend] at this
  | false =>
      have := congrArg List.length h
      simp [commitPair, batchAppend] at this

/-- Claim C5: the transaction begun on entry to `honcho_transaction` is
released (committed or rolled back) on every exit path; when the wrapped
body raises, rollback happens before the error propagates, so the
committed log is unchanged and no pending write of the transaction
remains visible. -/
theorem claim_C5_transaction_scope (body : List TxnOp) (st : TxnState) :
    st.nextTxn ∉ (honcho_transaction body st).1.openTxns ∧
      ((honcho_transaction body st).2 = false →
        ((honcho_transaction body st).1.committed = st.committed ∧
          ∀ p ∈ (honcho_transaction body st).1.pending,
            p.1 ≠ st.nextTxn)) := by
  have hrun := runBody_committed body
    { st with openTxns := st.nextTxn :: st.openTxns,
              nextTxn := st.nextTxn + 1,
              transaction_id := some st.nextTxn }
    st.nextTxn rfl
  unfold honcho_transaction beginTxn
  dsimp only
  by_cases hok : (runBody body
      { st with openTxns := st.nextTxn :: st.openTxns,
                nextTxn := st.nextTxn + 1,
                transaction_id := some st.nextTxn }).2 = true
  · rw [if_pos hok]
    refine ⟨?_, ?_⟩
    · simp [commitTxn, List.mem_filter]
    · intro hfalse
      exact absurd hfalse (by simp)
  · rw [if_neg hok]
    refine ⟨?_, fun _ => ⟨?_, ?_⟩⟩
    · simp [rollbackTxn, List.mem_filter]
    · exact hrun.1
    · intro p hp
      simp only [rollbackTxn, List.mem_filter] at hp
      simpa using hp.2

theorem claim_C5_transaction_scope_witness :
    (0 : Nat) ∉ (honcho_transaction [.write ⟨"hi", true⟩, .raiseErr]
        ⟨[], [], [], 0, none⟩).1.openTxns ∧
      (honcho_transaction [.write ⟨"hi", true⟩, .raiseErr]
        ⟨[], [], [], 0, none⟩).1.committed = [] :=
  ⟨(claim_C5_transaction_scope [.write ⟨"hi", true⟩, .raiseErr]
      ⟨[], [], [], 0, none⟩).1,
    ((claim_C5_transaction_scope [.write ⟨"hi", true⟩, .raiseErr]
      ⟨[], [], [], 0, none⟩).2 (by decide)).1⟩

namespace RepoCache

/-- Embedding of the `RepoStatus` enum (`tools/github/github_tool.py`),
all six members exactly as declared, `STALE` included. -/
inductive RepoStatus where
  | NOT_CLONED
  | CLONING
  | CLONED
  | UPDATING
  | ERROR
  | STALE
deriving DecidableEq, Repr

/-- Embedding of the `RepoInfo` dataclass: information about one managed
repository, with the dataclass defaults. -/
structure RepoInfo where
  url : String
  local_path : String
  status : RepoStatus := .NOT_CLONED
  last_updated : Option ℚ := none
  last_checked : Option ℚ := none
  branch : Option String := none
  commit_hash : Option String := none
  error_message : Option String := none
deriving DecidableEq, Repr

/-- Embedding of `RepoInfo.is_available`: the repository is usable for
reads exactly when its status is `CLONED`. -/
def is_available (info : RepoInfo) : Bool :=
  info.status == .CLONED

/-- Embedding of `RepoInfo.is_stale`: a never-updated repository is
stale; otherwise the age in hours since `last_updated` is compared
against `max_age_hours` (the source default is 24). -/
def is_stale (info : RepoInfo) (now : ℚ) (max_age_hours : ℚ) : Bool :=
  match info.last_updated with
  | none => true
  | some t => decide ((now - t) / 3600 > max_age_hours)

/-- The fields of `GitHubConfig` (`tools/github/config.py`) that the
tool operations read. -/
structure GitHubConfig where
  repos_to_clone : List String
  cache_dir : String
  default_branches : List (String × String)

/-- Python `url.rstrip("/")`. -/
def rstripSlash (url : String) : String :=
  ⟨(url.data.reverse.dropWhile (fun c => c = '/')).reverse⟩

/-- Embedding of `GitHubConfig.get_repo_name`:
`url.rstrip("/").split("/")[-1]`. -/
def get_repo_name (url : String) : String :=
  ((rstripSlash url).splitOn "/").getLastD ""

/-- Embedding of `GitHubConfig.get_local_repo_path`: the cache
directory joined with the repository name. -/
def get_local_repo_path (cfg : GitHubConfig) (url : String) : String :=
  cfg.cache_dir ++ "/" ++ get_repo_name url

/-- Embedding of `GitHubConfig.get_default_branch`: the configured
branch for the url, defaulting to "main". -/
def get_default_branch (cfg : GitHubConfig) (url : String) : String :=
  (cfg.default_branches.lookup url).getD "main"

/-- The mutable state of a `GitHubTool` instance: its configuration,
the url-to-`RepoInfo` map, the per-repository clone locks, and the
`repos_managed` statistic. -/
structure GitHubTool where
  config : GitHubConfig
  repos : List (String × RepoInfo)
  clone_locks : List String
  repos_managed : Nat

/-- Embedding of `GitHubTool.__init__` with `_initialize_repos`: one
`RepoInfo` (status `NOT_CLONED`, configured branch) and one clone lock
per configured repository. -/
def initRepos (cfg : GitHubConfig) : GitHubTool :=
  let repos := cfg.repos_to_clone.map (fun url =>
    (url, { url := url,
            local_path := get_local_repo_path cfg url,
            branch := some (get_default_branch cfg url) : RepoInfo }))
  { config := cfg, repos := repos, clone_locks := cfg.repos_to_clone,
    repos_managed := repos.length }

/-- Embedding of `_check_repo_states`: stamp `last_checked` and set
each status to `CLONED` or `NOT_CLONED` according to whether the local
path holds a git checkout (`hasGit`). -/
def check_repo_states (tool : GitHubTool) (hasGit : String → Bool)
    (now : ℚ) : GitHubTool :=
  { tool with repos := tool.repos.map (fun p =>
      (p.1, { p.2 with
              last_checked := some now,
              status := if hasGit p.2.local_path then RepoStatus.CLONED
                        else RepoStatus.NOT_CLONED })) }

/-- Embedding of `add_repository`: return unchanged when the url is
already managed; raise `ConfigurationError` (state unchanged) on a
malformed url; otherwise add a fresh `NOT_CLONED` entry and lock. -/
def add_repository (tool : GitHubTool) (url : String)
    (branch : Option String) : GitHubTool :=
  if tool.repos.any (fun p => p.1 == url) then tool
  else if url.startsWith "https://" || url.startsWith "git@" then
    { tool with
      repos := tool.repos ++
        [(url, { url := url,
                 local_path := get_local_repo_path tool.config url,
                 branch := some (branch.getD "main") : RepoInfo })],
      clone_locks := tool.clone_locks ++ [url],
      repos_managed := tool.repos.length + 1 }
  else tool

/-- Embedding of `remove_repository`: delete the entry and its lock
when present. -/
def remove_repository (tool : GitHubTool) (url : String) : GitHubTool :=
  if tool.repos.any (fun p => p.1 == url) then
    { tool with
      repos := tool.repos.filter (fun p => p.1 != url),
      clone_locks := tool.clone_locks.filter (fun u => u != url),
      repos_managed := (tool.repos.filter (fun p => p.1 != url)).length }
  else tool

/-- The state-mutating operations of `GitHubTool` present in the
source, used to range over reachable tool states. -/
inductive ToolOp where
  | checkStates (hasGit : String → Bool) (now : ℚ)
  | addRepo (url : String) (branch : Option String)
  | removeRepo (url : String)

/-- Apply one tool operation. -/
def applyOp (tool : GitHubTool) : ToolOp → GitHubTool
  | .checkStates hasGit now => check_repo_states tool hasGit now
  | .addRepo url branch => add_repository tool url branch
  | .removeRepo url => remove_repository tool url

/-- Run a sequence of tool operations. -/
def runOps (ops : List ToolOp) (tool : GitHubTool) : GitHubTool :=
  ops.foldl applyOp tool

/-- No stored repository status is the value `STALE`. -/
def statusLawful (tool : GitHubTool) : Bool :=
  tool.repos.all (fun p => p.2.status != RepoStatus.STALE)

/-- Every tool operation preserves `statusLawful`. -/
theorem statusLawful_applyOp (tool : GitHubTool) (op : ToolOp)
    (h : statusLawful tool = true) : statusLawful (applyOp tool op) = true := by
  cases op with
  | checkStates hasGit now =>
      simp only [statusLawful, applyOp, check_repo_states, List.all_eq_true,
        List.mem_map] at h ⊢
      rintro p ⟨q, hq, rfl⟩
      by_cases hg : hasGit q.2.local_path <;> simp [hg]
  | addRepo url branch =>
      simp only [applyOp, add_repository]
      by_cases h1 : tool.repos.any (fun p => p.1 == url)
      · rw [if_pos h1]; exact h
      · rw [if_neg h1]
        by_cases h2 : url.startsWith "https://" || url.startsWith "git@"
        · rw [if_pos h2]
          simp only [statusLawful, List.all_eq_true] at h ⊢
          intro p hp
          rcases List.mem_append.1 hp with h' | h'
          · exact h p h'
          · rcases List.mem_singleton.1 h' with rfl
            simp
        · rw [if_neg h2]; exact h
  | removeRepo url =>
      simp only [applyOp, remove_repository]
      by_cases h1 : tool.repos.any (fun p => p.1 == url)
      · rw [if_pos h1]
        simp only [statusLawful, List.all_eq_true] at h ⊢
        intro p hp
        exact h p (List.mem_of_mem_filter hp)
      · rw [if_neg h1]; exact h

/-- `statusLawful` is preserved by any operation sequence. -/
theorem statusLawful_runOps (ops : List ToolOp) :
    ∀ tool : GitHubTool, statusLawful tool = true →
      statusLawful (runOps ops tool) = true := by
  induction ops with
  | nil => intro tool h; exact h
  | cons op rest ih =>
      intro tool h
      exact ih (applyOp tool op) (statusLawful_applyOp tool op h)

/-- A freshly initialized tool satisfies `statusLawful`. -/
theorem statusLawful_initRepos (cfg : GitHubConfig) :
    statusLawful (initRepos cfg) = true := by
  simp only [statusLawful, initRepos, List.all_eq_true, List.mem_map]
  rintro p ⟨url, hurl, rfl⟩
  simp

end RepoCache

open RepoCache

/-- Claim C9: over every reachable sequence of `GitHubTool` operations,
no stored repository status is ever the value `STALE`; staleness is the
derived condition `is_stale`, true exactly when the repository was never
updated or its age in hours exceeds the configured threshold. -/
theorem claim_C9_stale_is_derived (cfg : GitHubConfig) (ops : List ToolOp) :
    statusLawful (runOps ops (initRepos cfg)) = true ∧
      (∀ (info : RepoInfo) (now max_age : ℚ),
        is_stale info now max_age = true ↔
          (info.last_updated = none ∨
            ∃ t, info.last_updated = some t ∧ (now - t) / 3600 > max_age)) := by
  constructor
  · exact statusLawful_runOps ops (initRepos cfg) (statusLawful_initRepos cfg)
  · intro info now max_age
    cases hlu : info.last_updated with
    | none => simp [is_stale, hlu]
    | some t => simp [is_stale, hlu]

/-- Claim C10: when `last_updated` is unset, `is_stale` returns `True`
regardless of the `max_age_hours` argument. -/
theorem claim_C10_never_updated_is_stale (info : RepoInfo)
    (now max_age : ℚ) (h : info.last_updated = none) :
    is_stale info now max_age = true := by
  unfold is_stale
  rw [h]

theorem claim_C10_never_updated_is_stale_witness :
    ({ url := "u", local_path := "p" } : RepoInfo).last_updated = none ∧
      is_stale { url := "u", local_path := "p" } 0 24 = true :=
  ⟨rfl, claim_C10_never_updated_is_stale { url := "u", local_path := "p" }
    0 24 rfl⟩

namespace CloneGuard

/-- Modelled from the spec: `ensure_repos_cloned`/`ensureCloned` is
absent from the source (`github_tool.py` leaves it "implemented in the
next prompt"; only the `_clone_locks` it must take are declared), so the
guarded clone is modelled from the spec as an atomic-step program:
acquire the repository's lock, check the status, clone when not yet
cloned, release.  `Pc` is the program counter of one task. -/
inductive Pc where
  | acquire
  | check
  | doClone
  | release
  | done
deriving DecidableEq, Repr

/-- One concurrent `ensureCloned` caller: its target repository and
program counter. -/
structure Task where
  target : String
  pc : Pc
deriving DecidableEq, Repr

/-- The shared state of two concurrent `ensureCloned` calls: repository
statuses, which task (if any) holds each repository's clone lock, how
many clone operations ran per repository, and the two tasks. -/
structure GuardState where
  status : String → RepoStatus
  lockHeld : String → Option (Fin 2)
  cloneCount : String → Nat
  tasks : Fin 2 → Task

/-- Program counters at which a task holds its target's lock. -/
def midPc : Pc → Bool
  | .check => true
  | .doClone => true
  | .release => true
  | _ => false

/-- Replace one task's program counter. -/
def setPc (s : GuardState) (t : Fin 2) (pc : Pc) : Fin 2 → Task :=
  fun u => if u = t then { s.tasks u with pc := pc } else s.tasks u

/-- Modelled from the spec: one atomic step of task `t`.  `acquire`
blocks (no state change) while another task holds the lock; `check` skips
the clone when the status is already `CLONED` (ensureCloned is a no-op on
a cloned repository); `doClone` performs the clone, counting it; `release`
frees the lock. -/
def step (t : Fin 2) (s : GuardState) : GuardState :=
  match (s.tasks t).pc with
  | .acquire =>
      match s.lockHeld (s.tasks t).target with
      | none =>
          { s with
            lockHeld := fun r =>
              if r = (s.tasks t).target then some t else s.lockHeld r,
            tasks := setPc s t .check }
      | some _ => s
  | .check =>
      if s.status (s.tasks t).target = RepoStatus.CLONED then
        { s with tasks := setPc s t .release }
      else
        { s with tasks := setPc s t .doClone }
  | .doClone =>
      { s with
        status := fun r =>
          if r = (s.tasks t).target then RepoStatus.CLONED else s.status r,
        cloneCount := fun r =>
          if r = (s.tasks t).target then s.cloneCount r + 1
          else s.cloneCount r,
        tasks := setPc s t .release }
  | .release =>
      { s with
        lockHeld := fun r =>
          if r = (s.tasks t).target then none else s.lockHeld r,
        tasks := setPc s t .done }
  | .done => s

/-- Run a schedule: an arbitrary interleaving of the two tasks. -/
def run (sched : List (Fin 2)) (s : GuardState) : GuardState :=
  sched.foldl (fun s t => step t s) s

/-- Both tasks about to call `ensureCloned`, nothing cloned, locks
free. -/
def init (r0 r1 : String) : GuardState :=
  { status := fun _ => RepoStatus.NOT_CLONED,
    lockHeld := fun _ => none,
    cloneCount := fun _ => 0,
    tasks := fun t => if t = 0 then ⟨r0, .acquire⟩ else ⟨r1, .acquire⟩ }

theorem setPc_self (s : GuardState) (t : Fin 2) (pc : Pc) :
    (setPc s t pc) t = { s.tasks t with pc := pc } := by
  simp [setPc]

theorem setPc_other (s : GuardState) (t : Fin 2) (pc : Pc) (u : Fin 2)
    (h : ¬u = t) : (setPc s t pc) u = s.tasks u := by
  simp [setPc, h]

/-- Invariant for two tasks on the same repository `r`: both target
`r`; the lock is held exactly by a task inside the guarded section (hence
at most one); a task about to clone has observed `NOT_CLONED`; a task at
or past `release` has seen the repository cloned; the clone counter
matches the status. -/
def Inv (r : String) (s : GuardState) : Prop :=
  (∀ t : Fin 2, (s.tasks t).target = r) ∧
  (∀ t : Fin 2, s.lockHeld r = some t ↔ midPc (s.tasks t).pc = true) ∧
  (∀ t : Fin 2, (s.tasks t).pc = .doClone → s.status r = .NOT_CLONED) ∧
  (∀ t : Fin 2,
    ((s.tasks t).pc = .release ∨ (s.tasks t).pc = .done) →
      s.status r = .CLONED) ∧
  (s.status r = .NOT_CLONED ∨ s.status r = .CLONED) ∧
  (s.cloneCount r = if s.status r = .CLONED then 1 else 0)

/-- The initial state satisfies the same-repository invariant. -/
theorem Inv_init (r : String) : Inv r (init r r) := by
  refine ⟨?_, ?_, ?_, ?_, Or.inl rfl, rfl⟩ <;>
    intro t <;> by_cases h : t = 0 <;> simp [init, h, midPc]

/-- Every step of either task preserves the same-repository
invariant. -/
theorem Inv_step (r : String) (t : Fin 2) (s : GuardState)
    (h : Inv r s) : Inv r (step t s) := by
  obtain ⟨htgt, hlk, hclone, hpost, hst, hcnt⟩ := h
  have htr : (s.tasks t).target = r := htgt t
  cases hpc : (s.tasks t).pc with
  | acquire =>
      have hstep : step t s = (match s.lockHeld r with
        | none =>
            { s with
              lockHeld := fun r' => if r' = r then some t else s.lockHeld r',
              tasks := setPc s t .check }
        | some _ => s) := by
        unfold step
        rw [hpc, htr]
      cases hl : s.lockHeld r with
      | some u =>
          have hstep2 : step t s = s := by rw [hstep, hl]
          rw [hstep2]
          exact ⟨htgt, hlk, hclone, hpost, hst, hcnt⟩
      | none =>
          have hstep2 : step t s =
              { s with
                lockHeld := fun r' => if r' = r then some t else s.lockHeld r',
                tasks := setPc s t .check } := by rw [hstep, hl]
          rw [hstep2]
          refine ⟨?_, ?_, ?_, ?_, hst, hcnt⟩
          · intro u
            by_cases hu : u = t <;> simp [setPc, hu, htr, htgt u]
          · intro u
            by_cases hu : u = t
            · subst hu
              simp [setPc, midPc]
            · simp only [setPc, if_neg hu]
              have hmu := (hlk u).2
              rw [hl] at hmu
              constructor
              · intro he
                exact absurd (Option.some.inj he).symm hu
              · intro hm
                exact absurd (hmu hm) (by simp)
          · intro u hu'
            by_cases hu : u = t
            · subst hu
              simp [setPc] at hu'
            · simp only [setPc, if_neg hu] at hu'
              exact hclone u hu'
          · intro u hu'
            by_cases hu : u = t
            · subst hu
              simp [setPc] at hu'
            · simp only [setPc, if_neg hu] at hu'
              exact hpost u hu'
  | check =>
      have hstep : step t s =
          (if s.status r = RepoStatus.CLONED then
            { s with tasks := setPc s t .release }
          else { s with tasks := setPc s t .doClone }) := by
        unfold step
        rw [hpc, htr]
      have hmid : midPc (s.tasks t).pc = true := by rw [hpc]; rfl
      have hlkt : s.lockHeld r = some t := (hlk t).2 hmid
      by_cases hcl : s.status r = RepoStatus.CLONED
      · rw [hstep, if_pos hcl]
        refine ⟨?_, ?_, ?_, fun u _ => hcl, hst, hcnt⟩
        · intro u
          by_cases hu : u = t <;> simp [setPc, hu, htr, htgt u]
        · intro u
          by_cases hu : u = t
          · subst hu
            simp [setPc, midPc, hlkt]
          · simp only [setPc, if_neg hu]
            exact hlk u
        · intro u hu'
          by_cases hu : u = t
          · subst hu
            simp [setPc] at hu'
          · simp only [setPc, if_neg hu] at hu'
            exact hclone u hu'
      · rw [hstep, if_neg hcl]
        have hnc : s.status r = RepoStatus.NOT_CLONED := by
          rcases hst with h' | h'
          · exact h'
          · exact absurd h' hcl
        refine ⟨?_, ?_, fun u _ => hnc, ?_, hst, hcnt⟩
        · intro u
          by_cases hu : u = t <;> simp [setPc, hu, htr, htgt u]
        · intro u
          by_cases hu : u = t
          · subst hu
            simp [setPc, midPc, hlkt]
          · simp only [setPc, if_neg hu]
            exact hlk u
        · intro u hu'
          by_cases hu : u = t
          · subst hu
            simp [setPc] at hu'
          · simp only [setPc, if_neg hu] at hu'
            exact hpost u hu'
  | doClone =>
      have hstep : step t s =
          { s with
            status := fun r' =>
              if r' = r then RepoStatus.CLONED else s.status r',
            cloneCount := fun r' =>
              if r' = r then s.cloneCount r' + 1 else s.cloneCount r',
            tasks := setPc s t .release } := by
        unfold step
        rw [hpc, htr]
      have hmid : midPc (s.tasks t).pc = true := by rw [hpc]; rfl
      have hlkt : s.lockHeld r = some t := (hlk t).2 hmid
      have hnc : s.status r = RepoStatus.NOT_CLONED := hclone t hpc
      have h0 : s.cloneCount r = 0 := by
        rw [hcnt, hnc]
        simp
      rw [hstep]
      refine ⟨?_, ?_, ?_, fun u _ => by simp, Or.inr (by simp), ?_⟩
      · intro u
        by_cases hu : u = t <;> simp [setPc, hu, htr, htgt u]
      · intro u
        by_cases hu : u = t
        · subst hu
          simp [setPc, midPc, hlkt]
        · simp only [setPc, if_neg hu]
          exact hlk u
      · intro u hu'
        by_cases hu : u = t
        · subst hu
          simp [setPc] at hu'
        · simp only [setPc, if_neg hu] at hu'
          have hmu : midPc (s.tasks u).pc = true := by rw [hu']; rfl
          have hsu : s.lockHeld r = some u := (hlk u).2 hmu
          rw [hlkt] at hsu
          exact absurd (Option.some.inj hsu).symm hu
      · simp [h0]
  | release =>
      have hstep : step t s =
          { s with
            lockHeld := fun r' => if r' = r then none else s.lockHeld r',
            tasks := setPc s t .done } := by
        unfold step
        rw [hpc, htr]
      have hmid : midPc (s.tasks t).pc = true := by rw [hpc]; rfl
      have hlkt : s.lockHeld r = some t := (hlk t).2 hmid
      have hcl : s.status r = RepoStatus.CLONED := hpost t (Or.inl hpc)
      rw [hstep]
      refine ⟨?_, ?_, ?_, fun u _ => hcl, hst, hcnt⟩
      · intro u
        by_cases hu : u = t <;> simp [setPc, hu, htr, htgt u]
      · intro u
        by_cases hu : u = t
        · subst hu
          simp [setPc, midPc]
        · simp only [setPc, if_neg hu]
          constructor
          · intro he
            exact absurd he (by simp)
          · intro hm
            have := (hlk u).2 hm
            rw [hlkt] at this
            exact absurd (Option.some.inj this).symm hu
      · intro u hu'
        by_cases hu : u = t
        · subst hu
          simp [setPc] at hu'
        · simp only [setPc, if_neg hu] at hu'
          exact hclone u hu'
  | done =>
      have hstep : step t s = s := by
        unfold step
        rw [hpc]
      rw [hstep]
      exact ⟨htgt, hlk, hclone, hpost, hst, hcnt⟩

/-- The same-repository invariant holds along every schedule. -/
theorem Inv_run (r : String) (sched : List (Fin 2)) :
    ∀ s : GuardState, Inv r s → Inv r (run sched s) := by
  induction sched with
  | nil => intro s h; exact h
  | cons t rest ih =>
      intro s h
      exact ih (step t s) (Inv_step r t s h)



/-- Invariant for tasks on two distinct repositories: each task's
target lock is held by that task exactly while it is inside the guarded
section. -/
def Inv2 (r0 r1 : String) (s : GuardState) : Prop :=
  (s.tasks 0).target = r0 ∧ (s.tasks 1).target = r1 ∧
  (∀ t : Fin 2, s.lockHeld ((s.tasks t).target)
      = if midPc (s.tasks t).pc then some t else none)

/-- The initial state satisfies the distinct-repository invariant. -/
theorem Inv2_init (r0 r1 : String) : Inv2 r0 r1 (init r0 r1) := by
  refine ⟨rfl, rfl, ?_⟩
  intro t
  by_cases h : t = 0 <;> simp [init, h, midPc]

theorem setPc_pc_other (s : GuardState) (t : Fin 2) (pc : Pc) (u : Fin 2)
    (h : ¬u = t) : ((setPc s t pc) u).pc = (s.tasks u).pc := by
  simp [setPc, h]

theorem setPc_target (s : GuardState) (t : Fin 2) (pc : Pc) (u : Fin 2) :
    ((setPc s t pc) u).target = (s.tasks u).target := by
  by_cases h : u = t <;> simp [setPc, h]

/-- Every step preserves the distinct-repository invariant. -/
theorem Inv2_step (r0 r1 : String) (hne : r0 ≠ r1) (t : Fin 2)
    (s : GuardState) (h : Inv2 r0 r1 s) : Inv2 r0 r1 (step t s) := by
  obtain ⟨h0, h1, hlk⟩ := h
  have hne' : r1 ≠ r0 := hne.symm
  have hdiff : ∀ u : Fin 2, ¬u = t →
      ¬(s.tasks u).target = (s.tasks t).target := by
    intro u hu
    fin_cases u <;> fin_cases t <;> simp_all
  cases hpc : (s.tasks t).pc with
  | acquire =>
      have hlt : s.lockHeld (s.tasks t).target = none := by
        have := hlk t
        rw [hpc] at this
        simpa [midPc] using this
      have hstep : step t s =
          { s with
            lockHeld := fun r' =>
              if r' = (s.tasks t).target then some t else s.lockHeld r',
            tasks := setPc s t .check } := by
        unfold step
        rw [hpc, hlt]
      rw [hstep]
      refine ⟨?_, ?_, ?_⟩
      · show ((setPc s t .check) 0).target = r0
        rw [setPc_target]; exact h0
      · show ((setPc s t .check) 1).target = r1
        rw [setPc_target]; exact h1
      · intro u
        show (if ((setPc s t .check) u).target = (s.tasks t).target
            then some t else s.lockHeld ((setPc s t .check) u).target)
          = if midPc ((setPc s t .check) u).pc then some u else none
        rw [setPc_target]
        by_cases hu : u = t
        · subst hu
          rw [setPc_self]
          simp [midPc]
        · rw [if_neg (hdiff u hu), setPc_pc_other s t _ u hu]
          exact hlk u
  | check =>
      have hstep : step t s =
          (if s.status (s.tasks t).target = RepoStatus.CLONED then
            { s with tasks := setPc s t .release }
          else { s with tasks := setPc s t .doClone }) := by
        unfold step
        rw [hpc]
      have hlt : s.lockHeld (s.tasks t).target = some t := by
        have := hlk t
        rw [hpc] at this
        simpa [midPc] using this
      by_cases hcl : s.status (s.tasks t).target = RepoStatus.CLONED
      · rw [hstep, if_pos hcl]
        refine ⟨?_, ?_, ?_⟩
        · show ((setPc s t .release) 0).target = r0
          rw [setPc_target]; exact h0
        · show ((setPc s t .release) 1).target = r1
          rw [setPc_target]; exact h1
        · intro u
          show s.lockHeld ((setPc s t .release) u).target
            = if midPc ((setPc s t .release) u).pc then some u else none
          rw [setPc_target]
          by_cases hu : u = t
          · subst hu
            rw [setPc_self, hlt]
            simp [midPc]
          · rw [setPc_pc_other s t _ u hu]
            exact hlk u
      · rw [hstep, if_neg hcl]
        refine ⟨?_, ?_, ?_⟩
        · show ((setPc s t .doClone) 0).target = r0
          rw [setPc_target]; exact h0
        · show ((setPc s t .doClone) 1).target = r1
          rw [setPc_target]; exact h1
        · intro u
          show s.lockHeld ((setPc s t .doClone) u).target
            = if midPc ((setPc s t .doClone) u).pc then some u else none
          rw [setPc_target]
          by_cases hu : u = t
          · subst hu
            rw [setPc_self, hlt]
            simp [midPc]
          · rw [setPc_pc_other s t _ u hu]
            exact hlk u
  | doClone =>
      have hstep : step t s =
          { s with
            status := fun r' =>
              if r' = (s.tasks t).target then RepoStatus.CLONED
              else s.status r',
            cloneCount := fun r' =>
              if r' = (s.tasks t).target then s.cloneCount r' + 1
              else s.cloneCount r',
            tasks := setPc s t .release } := by
        unfold step
        rw [hpc]
      have hlt : s.lockHeld (s.tasks t).target = some t := by
        have := hlk t
        rw [hpc] at this
        simpa [midPc] using this
      rw [hstep]
      refine ⟨?_, ?_, ?_⟩
      · show ((setPc s t .release) 0).target = r0
        rw [setPc_target]; exact h0
      · show ((setPc s t .release) 1).target = r1
        rw [setPc_target]; exact h1
      · intro u
        show s.lockHeld ((setPc s t .release) u).target
          = if midPc ((setPc s t .release) u).pc then some u else none
        rw [setPc_target]
        by_cases hu : u = t
        · subst hu
          rw [setPc_self, hlt]
          simp [midPc]
        · rw [setPc_pc_other s t _ u hu]
          exact hlk u
  | release =>
      have hstep : step t s =
          { s with
            lockHeld := fun r' =>
              if r' = (s.tasks t).target then none else s.lockHeld r',
            tasks := setPc s t .done } := by
        unfold step
        rw [hpc]
      rw [hstep]
      refine ⟨?_, ?_, ?_⟩
      · show ((setPc s t .done) 0).target = r0
        rw [setPc_target]; exact h0
      · show ((setPc s t .done) 1).target = r1
        rw [setPc_target]; exact h1
      · intro u
        show (if ((setPc s t .done) u).target = (s.tasks t).target
            then none else s.lockHeld ((setPc s t .done) u).target)
          = if midPc ((setPc s t .done) u).pc then some u else none
        rw [setPc_target]
        by_cases hu : u = t
        · subst hu
          rw [setPc_self]
          simp [midPc]
        · rw [if_neg (hdiff u hu), setPc_pc_other s t _ u hu]
          exact hlk u
  | done =>
      have hstep : step t s = s := by
        unfold step
        rw [hpc]
      rw [hstep]
      exact ⟨h0, h1, hlk⟩

/-- The distinct-repository invariant holds along every schedule. -/
theorem Inv2_run (r0 r1 : String) (hne : r0 ≠ r1) (sched : List (Fin 2)) :
    ∀ s : GuardState, Inv2 r0 r1 s → Inv2 r0 r1 (run sched s) := by
  induction sched with
  | nil => intro s h; exact h
  | cons t rest ih =>
      intro s h
      exact ih (step t s) (Inv2_step r0 r1 hne t s h)

/-- With distinct targets, an unfinished task is never blocked: its
next step always advances its program counter. -/
theorem step_progress (r0 r1 : String) (s : GuardState)
    (h : Inv2 r0 r1 s) (t : Fin 2) (hnd : (s.tasks t).pc ≠ .done) :
    ((step t s).tasks t).pc ≠ (s.tasks t).pc := by
  obtain ⟨h0, h1, hlk⟩ := h
  cases hpc : (s.tasks t).pc with
  | acquire =>
      have hlt : s.lockHeld (s.tasks t).target = none := by
        have := hlk t
        rw [hpc] at this
        simpa [midPc] using this
      have hstep : step t s =
          { s with
            lockHeld := fun r' =>
              if r' = (s.tasks t).target then some t else s.lockHeld r',
            tasks := setPc s t .check } := by
        unfold step
        rw [hpc, hlt]
      rw [hstep]
      show ((setPc s t .check) t).pc ≠ Pc.acquire
      rw [setPc_self]
      simp
  | check =>
      have hstep : step t s =
          (if s.status (s.tasks t).target = RepoStatus.CLONED then
            { s with tasks := setPc s t .release }
          else { s with tasks := setPc s t .doClone }) := by
        unfold step
        rw [hpc]
      by_cases hcl : s.status (s.tasks t).target = RepoStatus.CLONED
      · rw [hstep, if_pos hcl]
        show ((setPc s t .release) t).pc ≠ Pc.check
        rw [setPc_self]
        simp
      · rw [hstep, if_neg hcl]
        show ((setPc s t .doClone) t).pc ≠ Pc.check
        rw [setPc_self]
        simp
  | doClone =>
      have hstep : step t s =
          { s with
            status := fun r' =>
              if r' = (s.tasks t).target then RepoStatus.CLONED
              else s.status r',
            cloneCount := fun r' =>
              if r' = (s.tasks t).target then s.cloneCount r' + 1
              else s.cloneCount r',
            tasks := setPc s t .release } := by
        unfold step
        rw [hpc]
      rw [hstep]
      show ((setPc s t .release) t).pc ≠ Pc.doClone
      rw [setPc_self]
      simp
  | release =>
      have hstep : step t s =
          { s with
            lockHeld := fun r' =>
              if r' = (s.tasks t).target then none else s.lockHeld r',
            tasks := setPc s t .done } := by
        unfold step
        rw [hpc]
      rw [hstep]
      show ((setPc s t .done) t).pc ≠ Pc.release
      rw [setPc_self]
      simp
  | done => exact absurd hpc hnd

end CloneGuard

open CloneGuard

/-- Claim C8: under every interleaving of two concurrent `ensureCloned`
calls on the same repository, when both complete exactly one clone
operation was performed; and calls on two distinct repositories never
block each other — an unfinished task can always take a step. -/
theorem claim_C8_per_repo_guard :
    (∀ (r : String) (sched : List (Fin 2)),
        ((run sched (init r r)).tasks 0).pc = Pc.done →
        ((run sched (init r r)).tasks 1).pc = Pc.done →
        (run sched (init r r)).cloneCount r = 1) ∧
      (∀ (r0 r1 : String) (sched : List (Fin 2)) (t : Fin 2), r0 ≠ r1 →
        ((run sched (init r0 r1)).tasks t).pc ≠ Pc.done →
        ((step t (run sched (init r0 r1))).tasks t).pc
          ≠ ((run sched (init r0 r1)).tasks t).pc) := by
  constructor
  · intro r sched hd0 hd1
    have hinv := Inv_run r sched (init r r) (Inv_init r)
    obtain ⟨_, _, _, hpost, _, hcnt⟩ := hinv
    have hcl := hpost 0 (Or.inr hd0)
    rw [hcnt, hcl]
    simp
  · intro r0 r1 sched t hne hnd
    exact step_progress r0 r1 (run sched (init r0 r1))
      (Inv2_run r0 r1 hne sched (init r0 r1) (Inv2_init r0 r1)) t hnd

theorem claim_C8_per_repo_guard_witness :
    (run [0, 0, 0, 0, 1, 1, 1] (init "a" "a")).cloneCount "a" = 1 ∧
      ((step 0 (init "a" "b")).tasks 0).pc ≠ Pc.acquire :=
  ⟨claim_C8_per_repo_guard.1 "a" [0, 0, 0, 0, 1, 1, 1]
      (by decide) (by decide),
    claim_C8_per_repo_guard.2 "a" "b" [] 0 (by decide) (by decide)⟩
